import Mathlib

/-!
Verification of the bookmark persistence/service core of the `tools`
command-bookmark manager.

The storage backend (`internal/repository/yaml/bookmark_yaml_repo.go`)
loads the whole YAML document into a slice of `models.Bookmark` on every
operation, performs a linear scan, and rewrites the whole document on
mutation.  We embed the store as that in-memory slice, a `List Bookmark`;
each repository operation is the pure function the Go loop computes on the
loaded slice, returning the new slice to be persisted (`Except` models the
error returns).  The service layer
(`internal/service/bookmark_service_impl.go`) is embedded as functions
threading the store through each repository call, so that a repository
write performed before a later failure is reflected in the resulting
store, exactly as the Go code persists it.
-/

/-- Go's `strings.TrimSpace`: removes all leading and trailing whitespace
from a string.  Embedded structurally over the string's character list so
that it evaluates inside the kernel; Lean's `Char.isWhitespace` stands in
for Go's `unicode.IsSpace` (they agree on the ASCII whitespace the spec
and tests exercise). -/
def TrimSpace (s : String) : String :=
  ⟨((s.data.dropWhile Char.isWhitespace).reverse.dropWhile Char.isWhitespace).reverse⟩

deriving instance DecidableEq for Except

/-- `models.Bookmark`: a stored (command, toolName, description) triple;
`command` is the primary key. -/
structure Bookmark where
  command : String
  toolName : String
  description : String
  deriving DecidableEq, Repr

/-- The two sentinel errors of the YAML repository:
`ErrBookmarkNotFound` and `ErrBookmarkAlreadyExists`. -/
inductive RepoError where
  | notFound
  | alreadyExists
  deriving DecidableEq, Repr

namespace YAMLBookmarkRepository

/-- `Create`: rejects a duplicate `command` (primary key), otherwise
appends the record at the end of the collection. -/
def Create (s : List Bookmark) (ex : Bookmark) : Except RepoError (List Bookmark) :=
  if s.any (fun x => x.command == ex.command) then
    .error .alreadyExists
  else
    .ok (s ++ [ex])

/-- `GetByCommand`: linear scan returning the first record whose
`command` equals the argument, else `ErrBookmarkNotFound`. -/
def GetByCommand (s : List Bookmark) (command : String) : Except RepoError Bookmark :=
  match s.find? (fun ex => ex.command == command) with
  | some ex => .ok ex
  | none => .error .notFound

/-- `List`: returns all records in storage order. -/
def list (s : List Bookmark) : List Bookmark := s

/-- `ListByToolName`: all records whose `toolName` equals the argument,
in storage order. -/
def ListByToolName (s : List Bookmark) (toolName : String) : List Bookmark :=
  s.filter (fun ex => ex.toolName == toolName)

/-- `Update`: replaces the first record whose `command` equals the
incoming record's `command`, in place; `ErrBookmarkNotFound` if none. -/
def Update (s : List Bookmark) (ex : Bookmark) : Except RepoError (List Bookmark) :=
  match s with
  | [] => .error .notFound
  | x :: rest =>
    if x.command == ex.command then
      .ok (ex :: rest)
    else
      match Update rest ex with
      | .ok rest' => .ok (x :: rest')
      | .error e => .error e

/-- `Delete`: removes the first record whose `command` equals the
argument; `ErrBookmarkNotFound` if none. -/
def Delete (s : List Bookmark) (command : String) : Except RepoError (List Bookmark) :=
  match s with
  | [] => .error .notFound
  | x :: rest =>
    if x.command == command then
      .ok rest
    else
      match Delete rest command with
      | .ok rest' => .ok (x :: rest')
      | .error e => .error e

/-- `DeleteByToolName`: one pass accumulating the records whose
`toolName` differs from the argument and a `found` flag;
`ErrBookmarkNotFound` when zero records matched. -/
def DeleteByToolName (s : List Bookmark) (toolName : String) : Except RepoError (List Bookmark) :=
  let acc := s.foldl
    (fun (acc : List Bookmark × Bool) ex =>
      if ex.toolName != toolName then (acc.1 ++ [ex], acc.2) else (acc.1, true))
    ([], false)
  if acc.2 then .ok acc.1 else .error .notFound

/-- `Exists`: linear scan; true exactly when some record's `command`
equals the argument. -/
def Exists (s : List Bookmark) (command : String) : Bool :=
  s.any (fun ex => ex.command == command)

end YAMLBookmarkRepository

/-- `dto.CreateBookmarkRequest`. -/
structure CreateBookmarkRequest where
  command : String
  toolName : String
  description : String
  deriving DecidableEq, Repr

/-- `dto.UpdateBookmarkRequest`; the three `new*` fields are optional,
with the empty string standing for "not provided". -/
structure UpdateBookmarkRequest where
  command : String
  newToolName : String
  newDescription : String
  newCommand : String
  deriving DecidableEq, Repr

/-- `dto.BookmarkResponse`. -/
structure BookmarkResponse where
  command : String
  toolName : String
  description : String
  deriving DecidableEq, Repr

/-- Which field `validateCreateRequest` reported as empty. -/
inductive VField where
  | command
  | toolName
  | description
  deriving DecidableEq, Repr

/-- The error kinds the service layer returns: a validation failure, the
"already exists" conflict raised by the service itself, or a wrapped
repository error. -/
inductive SvcError where
  | validation (field : VField)
  | conflict
  | repoErr (e : RepoError)
  deriving DecidableEq, Repr

namespace bookmarkServiceImpl

open YAMLBookmarkRepository

/-- `validateCreateRequest`: each field must be non-empty after trimming
surrounding whitespace; the first offending field is reported. -/
def validateCreateRequest (req : CreateBookmarkRequest) : Option SvcError :=
  if TrimSpace req.command == "" then some (.validation .command)
  else if TrimSpace req.toolName == "" then some (.validation .toolName)
  else if TrimSpace req.description == "" then some (.validation .description)
  else none

/-- `modelToDTO`: converts a stored record to the response shape. -/
def modelToDTO (ex : Bookmark) : BookmarkResponse :=
  ⟨ex.command, ex.toolName, ex.description⟩

/-- `CreateBookmark`: validate, check existence, then persist the request
fields and return the created record's response. -/
def CreateBookmark (s : List Bookmark) (req : CreateBookmarkRequest) :
    List Bookmark × Except SvcError BookmarkResponse :=
  match validateCreateRequest req with
  | some e => (s, .error e)
  | none =>
    if Exists s req.command then
      (s, .error .conflict)
    else
      match Create s ⟨req.command, req.toolName, req.description⟩ with
      | .error e => (s, .error (.repoErr e))
      | .ok s' => (s', .ok (modelToDTO ⟨req.command, req.toolName, req.description⟩))

/-- `GetBookmark`: delegates to the repository lookup. -/
def GetBookmark (s : List Bookmark) (command : String) : Except SvcError BookmarkResponse :=
  match GetByCommand s command with
  | .error e => .error (.repoErr e)
  | .ok ex => .ok (modelToDTO ex)

/-- `ListBookmarks`: all records as responses, with their count. -/
def ListBookmarks (s : List Bookmark) : List BookmarkResponse × Nat :=
  let responses := (list s).map modelToDTO
  (responses, responses.length)

/-- The "update fields if provided" block of `UpdateBookmark`: each
optional field overwrites the existing record's attribute only when it
is non-empty. -/
def applyOptionalFields (existing0 : Bookmark) (req : UpdateBookmarkRequest) : Bookmark :=
  let existing1 :=
    if req.newToolName != "" then { existing0 with toolName := req.newToolName } else existing0
  if req.newDescription != "" then
    { existing1 with description := req.newDescription }
  else existing1

/-- `UpdateBookmark`: fetch the existing record, apply each optional
field only if non-empty; a provided `newCommand` differing from
`command` is a primary-key change performed as conflict-check, delete of
the old entry, then create of the renamed entry; otherwise an in-place
repository update. -/
def UpdateBookmark (s : List Bookmark) (req : UpdateBookmarkRequest) :
    List Bookmark × Except SvcError BookmarkResponse :=
  match GetByCommand s req.command with
  | .error e => (s, .error (.repoErr e))
  | .ok existing0 =>
    if req.newCommand != "" && req.newCommand != req.command then
      if Exists s req.newCommand then
        (s, .error .conflict)
      else
        match Delete s req.command with
        | .error e => (s, .error (.repoErr e))
        | .ok s1 =>
          match Create s1 { applyOptionalFields existing0 req with command := req.newCommand } with
          | .error e => (s1, .error (.repoErr e))
          | .ok s2 =>
            (s2, .ok (modelToDTO { applyOptionalFields existing0 req with command := req.newCommand }))
    else
      match Update s (applyOptionalFields existing0 req) with
      | .error e => (s, .error (.repoErr e))
      | .ok s' => (s', .ok (modelToDTO (applyOptionalFields existing0 req)))

/-- `DeleteBookmark`: delegates to the repository delete. -/
def DeleteBookmark (s : List Bookmark) (command : String) :
    List Bookmark × Except SvcError Unit :=
  match Delete s command with
  | .error e => (s, .error (.repoErr e))
  | .ok s' => (s', .ok ())

/-- `DeleteToolBookmarks`: delegates to the repository bulk delete. -/
def DeleteToolBookmarks (s : List Bookmark) (toolName : String) :
    List Bookmark × Except SvcError Unit :=
  match DeleteByToolName s toolName with
  | .error e => (s, .error (.repoErr e))
  | .ok s' => (s', .ok ())

end bookmarkServiceImpl

namespace YAMLBookmarkRepository

theorem exists_eq_true_iff (s : List Bookmark) (c : String) :
    Exists s c = true ↔ ∃ b ∈ s, b.command = c := by
  simp [Exists]

theorem exists_eq_false_iff (s : List Bookmark) (c : String) :
    Exists s c = false ↔ ∀ b ∈ s, b.command ≠ c := by
  simp [Exists]

theorem getByCommand_ok {s : List Bookmark} {c : String} {b : Bookmark}
    (h : GetByCommand s c = .ok b) : b ∈ s ∧ b.command = c := by
  unfold GetByCommand at h
  cases hf : s.find? (fun ex => ex.command == c) with
  | none => rw [hf] at h; cases h
  | some x =>
    rw [hf] at h
    cases h
    exact ⟨List.mem_of_find?_eq_some hf, by simpa using List.find?_some hf⟩

theorem getByCommand_eq_error_iff (s : List Bookmark) (c : String) :
    GetByCommand s c = .error .notFound ↔ ∀ b ∈ s, b.command ≠ c := by
  unfold GetByCommand
  cases hf : s.find? (fun ex => ex.command == c) with
  | none =>
    simp only [List.find?_eq_none] at hf
    simpa using hf
  | some x =>
    have hx : x.command = c := by simpa using List.find?_some hf
    have hm : x ∈ s := List.mem_of_find?_eq_some hf
    simp only [iff_false_intro]
    constructor
    · intro h; cases h
    · intro h; exact absurd hx (h x hm)

/-- A successful `find?` on the command splits the collection at the first
match. -/
theorem find?_command_decomp {s : List Bookmark} {c : String} {x : Bookmark}
    (h : s.find? (fun ex => ex.command == c) = some x) :
    ∃ l1 l2, s = l1 ++ x :: l2 ∧ ∀ y ∈ l1, y.command ≠ c := by
  induction s with
  | nil => cases h
  | cons a rest ih =>
    by_cases ha : a.command = c
    · rw [List.find?_cons_of_pos _ (by simpa using ha)] at h
      cases h
      exact ⟨[], rest, rfl, by simp⟩
    · rw [List.find?_cons_of_neg _ (by simpa using ha)] at h
      obtain ⟨l1, l2, hs, hne⟩ := ih h
      exact ⟨a :: l1, l2, by rw [hs]; rfl, by
        intro y hy
        rcases List.mem_cons.mp hy with rfl | hy'
        · exact ha
        · exact hne y hy'⟩

theorem create_ok_iff {s : List Bookmark} {b : Bookmark} {s' : List Bookmark} :
    Create s b = .ok s' ↔ (∀ x ∈ s, x.command ≠ b.command) ∧ s' = s ++ [b] := by
  unfold Create
  split
  · rename_i hany
    simp only [List.any_eq_true, beq_iff_eq] at hany
    obtain ⟨x, hx, hxc⟩ := hany
    constructor
    · intro h; cases h
    · rintro ⟨hno, -⟩; exact absurd hxc (hno x hx)
  · rename_i hany
    have hno : ∀ x ∈ s, x.command ≠ b.command := by
      intro x hx hc
      exact hany (by simp only [List.any_eq_true]; exact ⟨x, hx, by simpa using hc⟩)
    constructor
    · intro h; cases h; exact ⟨hno, rfl⟩
    · rintro ⟨-, rfl⟩; rfl

theorem update_ok_decomp {s : List Bookmark} {b : Bookmark} {s' : List Bookmark}
    (h : Update s b = .ok s') :
    ∃ l1 x l2, s = l1 ++ x :: l2 ∧ (∀ y ∈ l1, y.command ≠ b.command) ∧
      x.command = b.command ∧ s' = l1 ++ b :: l2 := by
  induction s generalizing s' with
  | nil => cases h
  | cons a rest ih =>
    by_cases ha : a.command = b.command
    · rw [Update, if_pos (by simpa using ha)] at h
      cases h
      exact ⟨[], a, rest, rfl, by simp, ha, rfl⟩
    · rw [Update, if_neg (by simpa using ha)] at h
      cases hrec : Update rest b with
      | error e => rw [hrec] at h; cases h
      | ok rest' =>
        rw [hrec] at h
        cases h
        obtain ⟨l1, x, l2, hs, hne, hx, hres⟩ := ih hrec
        exact ⟨a :: l1, x, l2, by rw [hs]; rfl, by
          intro y hy
          rcases List.mem_cons.mp hy with rfl | hy'
          · exact ha
          · exact hne y hy', hx, by rw [hres]; rfl⟩

theorem update_eq_ok_of_decomp {l1 l2 : List Bookmark} {x b : Bookmark}
    (hne : ∀ y ∈ l1, y.command ≠ b.command) (hx : x.command = b.command) :
    Update (l1 ++ x :: l2) b = .ok (l1 ++ b :: l2) := by
  induction l1 with
  | nil => simp only [List.nil_append]; rw [Update, if_pos (by simpa using hx)]
  | cons a l1' ih =>
    have ha : a.command ≠ b.command := hne a (List.mem_cons_self a l1')
    have ih' := ih (fun y hy => hne y (List.mem_cons_of_mem a hy))
    simp only [List.cons_append]
    rw [Update, if_neg (by simpa using ha), ih']

theorem delete_ok_decomp {s : List Bookmark} {c : String} {s' : List Bookmark}
    (h : Delete s c = .ok s') :
    ∃ l1 x l2, s = l1 ++ x :: l2 ∧ (∀ y ∈ l1, y.command ≠ c) ∧
      x.command = c ∧ s' = l1 ++ l2 := by
  induction s generalizing s' with
  | nil => cases h
  | cons a rest ih =>
    by_cases ha : a.command = c
    · rw [Delete, if_pos (by simpa using ha)] at h
      cases h
      exact ⟨[], a, rest, rfl, by simp, ha, rfl⟩
    · rw [Delete, if_neg (by simpa using ha)] at h
      cases hrec : Delete rest c with
      | error e => rw [hrec] at h; cases h
      | ok rest' =>
        rw [hrec] at h
        cases h
        obtain ⟨l1, x, l2, hs, hne, hx, hres⟩ := ih hrec
        exact ⟨a :: l1, x, l2, by rw [hs]; rfl, by
          intro y hy
          rcases List.mem_cons.mp hy with rfl | hy'
          · exact ha
          · exact hne y hy', hx, by rw [hres]; rfl⟩

theorem delete_eq_ok_of_decomp {l1 l2 : List Bookmark} {x : Bookmark} {c : String}
    (hne : ∀ y ∈ l1, y.command ≠ c) (hx : x.command = c) :
    Delete (l1 ++ x :: l2) c = .ok (l1 ++ l2) := by
  induction l1 with
  | nil => simp only [List.nil_append]; rw [Delete, if_pos (by simpa using hx)]
  | cons a l1' ih =>
    have ha : a.command ≠ c := hne a (List.mem_cons_self a l1')
    have ih' := ih (fun y hy => hne y (List.mem_cons_of_mem a hy))
    simp only [List.cons_append]
    rw [Delete, if_neg (by simpa using ha), ih']

theorem deleteByToolName_foldl (s : List Bookmark) (t : String) (acc : List Bookmark × Bool) :
    s.foldl
      (fun (acc : List Bookmark × Bool) ex =>
        if ex.toolName != t then (acc.1 ++ [ex], acc.2) else (acc.1, true))
      acc
    = (acc.1 ++ s.filter (fun ex => ex.toolName != t),
       acc.2 || s.any (fun ex => ex.toolName == t)) := by
  induction s generalizing acc with
  | nil => simp
  | cons a rest ih =>
    by_cases ha : a.toolName = t
    · have hb : (a.toolName != t) = false := by simp [bne, ha]
      have hq : (a.toolName == t) = true := by simpa using ha
      rw [List.foldl_cons]
      simp only [hb, Bool.false_eq_true, if_false]
      rw [ih]
      simp [List.filter_cons, hb, hq]
    · have hb : (a.toolName != t) = true := by simp [bne, ha]
      have hq : (a.toolName == t) = false := by simpa using ha
      rw [List.foldl_cons]
      simp only [hb, if_true]
      rw [ih]
      simp [List.filter_cons, hb, hq, List.append_assoc]

theorem deleteByToolName_eq (s : List Bookmark) (t : String) :
    DeleteByToolName s t =
      if s.any (fun ex => ex.toolName == t) then
        .ok (s.filter (fun ex => ex.toolName != t))
      else .error .notFound := by
  unfold DeleteByToolName
  rw [deleteByToolName_foldl]
  simp

end YAMLBookmarkRepository

/-- The primary-key invariant: no two stored records share a `command`. -/
def UniqueCommands (s : List Bookmark) : Prop :=
  (s.map Bookmark.command).Nodup

theorem uniqueCommands_of_sublist {s s' : List Bookmark} (h : List.Sublist s' s)
    (hu : UniqueCommands s) : UniqueCommands s' :=
  List.Nodup.sublist (h.map Bookmark.command) hu

theorem create_preserves_unique {s : List Bookmark} {b : Bookmark} {s' : List Bookmark}
    (h : YAMLBookmarkRepository.Create s b = .ok s') (hu : UniqueCommands s) :
    UniqueCommands s' := by
  obtain ⟨hno, rfl⟩ := YAMLBookmarkRepository.create_ok_iff.mp h
  unfold UniqueCommands at *
  rw [List.map_append, List.nodup_append]
  refine ⟨hu, by simp, ?_⟩
  intro a ha
  simp only [List.map_cons, List.map_nil, List.mem_singleton]
  obtain ⟨x, hx, rfl⟩ := List.mem_map.mp ha
  exact hno x hx

theorem update_preserves_unique {s : List Bookmark} {b : Bookmark} {s' : List Bookmark}
    (h : YAMLBookmarkRepository.Update s b = .ok s') (hu : UniqueCommands s) :
    UniqueCommands s' := by
  obtain ⟨l1, x, l2, rfl, -, hx, rfl⟩ := YAMLBookmarkRepository.update_ok_decomp h
  unfold UniqueCommands at *
  rw [List.map_append, List.map_cons, ← hx]
  rwa [List.map_append, List.map_cons] at hu

theorem delete_preserves_unique {s : List Bookmark} {c : String} {s' : List Bookmark}
    (h : YAMLBookmarkRepository.Delete s c = .ok s') (hu : UniqueCommands s) :
    UniqueCommands s' := by
  obtain ⟨l1, x, l2, rfl, -, -, rfl⟩ := YAMLBookmarkRepository.delete_ok_decomp h
  exact uniqueCommands_of_sublist
    (List.Sublist.append_left (List.sublist_cons_self x l2) l1) hu

theorem deleteByToolName_preserves_unique {s : List Bookmark} {t : String} {s' : List Bookmark}
    (h : YAMLBookmarkRepository.DeleteByToolName s t = .ok s') (hu : UniqueCommands s) :
    UniqueCommands s' := by
  rw [YAMLBookmarkRepository.deleteByToolName_eq] at h
  split at h
  · cases h
    exact uniqueCommands_of_sublist (List.filter_sublist s) hu
  · cases h

/-- After a successful delete on a duplicate-free store, no record with
the deleted command remains. -/
theorem delete_no_command {s : List Bookmark} {c : String} {s' : List Bookmark}
    (hu : UniqueCommands s) (h : YAMLBookmarkRepository.Delete s c = .ok s') :
    ∀ b ∈ s', b.command ≠ c := by
  obtain ⟨l1, x, l2, rfl, hne, hx, rfl⟩ := YAMLBookmarkRepository.delete_ok_decomp h
  intro b hb hbc
  rcases List.mem_append.mp hb with h1 | h2
  · exact hne b h1 hbc
  · unfold UniqueCommands at hu
    rw [List.map_append, List.map_cons, List.nodup_append] at hu
    have hnotin : x.command ∉ l2.map Bookmark.command := (List.nodup_cons.mp hu.2.1).1
    have hmem : b.command ∈ l2.map Bookmark.command := List.mem_map_of_mem _ h2
    rw [hbc, ← hx] at hmem
    exact hnotin hmem

/-- `find?` skips a prefix on which the predicate fails. -/
theorem find?_append_of_prefix_none {α : Type} {l1 l2 : List α} {p : α → Bool}
    (h : ∀ y ∈ l1, ¬ p y) : (l1 ++ l2).find? p = l2.find? p := by
  induction l1 with
  | nil => rfl
  | cons a l1' ih =>
    have ha : ¬ p a := h a (List.mem_cons_self a l1')
    rw [List.cons_append, List.find?_cons_of_neg _ (by simpa using ha)]
    exact ih (fun y hy => h y (List.mem_cons_of_mem a hy))

/-- One step of the store: the store a service or repository operation
leaves persisted, keeping the previous store when the repository call
reports an error without having written. -/
def applyRepo (s : List Bookmark) (r : Except RepoError (List Bookmark)) : List Bookmark :=
  match r with
  | .ok s' => s'
  | .error _ => s

/-- An operation against the store: any of the mutating Service
operations, or a raw Storage (repository) operation. -/
inductive Op where
  | svcCreate (req : CreateBookmarkRequest)
  | svcUpdate (req : UpdateBookmarkRequest)
  | svcDelete (command : String)
  | svcDeleteTool (toolName : String)
  | repoCreate (b : Bookmark)
  | repoUpdate (b : Bookmark)
  | repoDelete (command : String)
  | repoDeleteTool (toolName : String)

/-- The store after running one operation. -/
def applyOp (s : List Bookmark) (op : Op) : List Bookmark :=
  match op with
  | .svcCreate req => (bookmarkServiceImpl.CreateBookmark s req).1
  | .svcUpdate req => (bookmarkServiceImpl.UpdateBookmark s req).1
  | .svcDelete c => (bookmarkServiceImpl.DeleteBookmark s c).1
  | .svcDeleteTool t => (bookmarkServiceImpl.DeleteToolBookmarks s t).1
  | .repoCreate b => applyRepo s (YAMLBookmarkRepository.Create s b)
  | .repoUpdate b => applyRepo s (YAMLBookmarkRepository.Update s b)
  | .repoDelete c => applyRepo s (YAMLBookmarkRepository.Delete s c)
  | .repoDeleteTool t => applyRepo s (YAMLBookmarkRepository.DeleteByToolName s t)

theorem svcCreate_preserves_unique (s : List Bookmark) (req : CreateBookmarkRequest)
    (hu : UniqueCommands s) :
    UniqueCommands (bookmarkServiceImpl.CreateBookmark s req).1 := by
  unfold bookmarkServiceImpl.CreateBookmark
  split
  · exact hu
  · split
    · exact hu
    · split
      · exact hu
      · rename_i heq
        exact create_preserves_unique heq hu

theorem svcUpdate_preserves_unique (s : List Bookmark) (req : UpdateBookmarkRequest)
    (hu : UniqueCommands s) :
    UniqueCommands (bookmarkServiceImpl.UpdateBookmark s req).1 := by
  unfold bookmarkServiceImpl.UpdateBookmark
  split
  · exact hu
  · split
    · split
      · exact hu
      · split
        · exact hu
        · rename_i hdel
          split
          · rename_i hcr
            exact delete_preserves_unique hdel hu
          · rename_i hcr
            exact create_preserves_unique hcr (delete_preserves_unique hdel hu)
    · split
      · exact hu
      · rename_i hup
        exact update_preserves_unique hup hu

theorem svcDelete_preserves_unique (s : List Bookmark) (c : String)
    (hu : UniqueCommands s) :
    UniqueCommands (bookmarkServiceImpl.DeleteBookmark s c).1 := by
  unfold bookmarkServiceImpl.DeleteBookmark
  split
  · exact hu
  · rename_i h
    exact delete_preserves_unique h hu

theorem svcDeleteTool_preserves_unique (s : List Bookmark) (t : String)
    (hu : UniqueCommands s) :
    UniqueCommands (bookmarkServiceImpl.DeleteToolBookmarks s t).1 := by
  unfold bookmarkServiceImpl.DeleteToolBookmarks
  split
  · exact hu
  · rename_i h
    exact deleteByToolName_preserves_unique h hu

theorem applyRepo_preserves_unique {s : List Bookmark} {r : Except RepoError (List Bookmark)}
    (hu : UniqueCommands s) (hok : ∀ s', r = .ok s' → UniqueCommands s') :
    UniqueCommands (applyRepo s r) := by
  cases r with
  | ok s' => exact hok s' rfl
  | error e => exact hu

theorem applyOp_preserves_unique (s : List Bookmark) (op : Op) (hu : UniqueCommands s) :
    UniqueCommands (applyOp s op) := by
  cases op with
  | svcCreate req => exact svcCreate_preserves_unique s req hu
  | svcUpdate req => exact svcUpdate_preserves_unique s req hu
  | svcDelete c => exact svcDelete_preserves_unique s c hu
  | svcDeleteTool t => exact svcDeleteTool_preserves_unique s t hu
  | repoCreate b =>
    exact applyRepo_preserves_unique hu (fun s' h => create_preserves_unique h hu)
  | repoUpdate b =>
    exact applyRepo_preserves_unique hu (fun s' h => update_preserves_unique h hu)
  | repoDelete c =>
    exact applyRepo_preserves_unique hu (fun s' h => delete_preserves_unique h hu)
  | repoDeleteTool t =>
    exact applyRepo_preserves_unique hu (fun s' h => deleteByToolName_preserves_unique h hu)

theorem foldl_applyOp_unique (ops : List Op) (s : List Bookmark) (hu : UniqueCommands s) :
    UniqueCommands (ops.foldl applyOp s) := by
  induction ops generalizing s with
  | nil => exact hu
  | cons op rest ih =>
    rw [List.foldl_cons]
    exact ih (applyOp s op) (applyOp_preserves_unique s op hu)

theorem getByCommand_find? {s : List Bookmark} {c : String} {b : Bookmark}
    (h : YAMLBookmarkRepository.GetByCommand s c = .ok b) :
    s.find? (fun ex => ex.command == c) = some b := by
  unfold YAMLBookmarkRepository.GetByCommand at h
  cases hf : s.find? (fun ex => ex.command == c) with
  | none => rw [hf] at h; cases h
  | some x => rw [hf] at h; cases h; rfl

theorem getByCommand_ok_of_exists {s : List Bookmark} {c : String}
    (h : YAMLBookmarkRepository.Exists s c = true) :
    ∃ b, YAMLBookmarkRepository.GetByCommand s c = .ok b := by
  obtain ⟨b, hb, hc⟩ := (YAMLBookmarkRepository.exists_eq_true_iff s c).mp h
  unfold YAMLBookmarkRepository.GetByCommand
  cases hf : s.find? (fun ex => ex.command == c) with
  | none =>
    rw [List.find?_eq_none] at hf
    exact absurd (by simpa using hc) (hf b hb)
  | some x => exact ⟨x, rfl⟩

theorem validateCreateRequest_none_iff (req : CreateBookmarkRequest) :
    bookmarkServiceImpl.validateCreateRequest req = none ↔
      TrimSpace req.command ≠ "" ∧ TrimSpace req.toolName ≠ "" ∧
        TrimSpace req.description ≠ "" := by
  unfold bookmarkServiceImpl.validateCreateRequest
  by_cases h1 : TrimSpace req.command = ""
  · simp [h1]
  · by_cases h2 : TrimSpace req.toolName = ""
    · simp [h1, h2]
    · by_cases h3 : TrimSpace req.description = ""
      · simp [h1, h2, h3]
      · simp [h1, h2, h3]

theorem applyOptionalFields_eq (ex : Bookmark) (req : UpdateBookmarkRequest) :
    bookmarkServiceImpl.applyOptionalFields ex req =
      ⟨ex.command,
       if req.newToolName = "" then ex.toolName else req.newToolName,
       if req.newDescription = "" then ex.description else req.newDescription⟩ := by
  unfold bookmarkServiceImpl.applyOptionalFields
  by_cases h1 : req.newToolName = "" <;> by_cases h2 : req.newDescription = "" <;>
    simp [h1, h2, bne]

/-- C1: the `command` field is a unique primary key: for every sequence of
Service/Storage operations starting from the empty store, at no point do
two distinct stored records share the same `command` value. -/
theorem c1_command_is_unique_primary_key (ops : List Op) :
    UniqueCommands (ops.foldl applyOp []) :=
  foldl_applyOp_unique ops [] (by simp [UniqueCommands])

/-- C10: for every store and command, `Exists` returns true exactly when
`GetByCommand` succeeds, and false exactly when `GetByCommand` fails with
NotFound. -/
theorem c10_exists_agrees_with_getByCommand (s : List Bookmark) (c : String) :
    (YAMLBookmarkRepository.Exists s c = true ↔
      ∃ b, YAMLBookmarkRepository.GetByCommand s c = .ok b)
    ∧ (YAMLBookmarkRepository.Exists s c = false ↔
      YAMLBookmarkRepository.GetByCommand s c = .error .notFound) := by
  constructor
  · constructor
    · exact getByCommand_ok_of_exists
    · rintro ⟨b, hb⟩
      obtain ⟨hm, hc⟩ := YAMLBookmarkRepository.getByCommand_ok hb
      exact (YAMLBookmarkRepository.exists_eq_true_iff s c).mpr ⟨b, hm, hc⟩
  · constructor
    · intro h
      exact (YAMLBookmarkRepository.getByCommand_eq_error_iff s c).mpr
        ((YAMLBookmarkRepository.exists_eq_false_iff s c).mp h)
    · intro h
      exact (YAMLBookmarkRepository.exists_eq_false_iff s c).mpr
        ((YAMLBookmarkRepository.getByCommand_eq_error_iff s c).mp h)

/-- C7: `deleteToolBookmarks` removes exactly the records whose `toolName`
equals the argument, leaving the others in their original relative order
(a filter of the collection), and fails with NotFound — leaving the store
unchanged — if and only if zero records matched. -/
theorem c7_bulk_delete_semantics (s : List Bookmark) (t : String) :
    (s.any (fun b => b.toolName == t) = true →
      bookmarkServiceImpl.DeleteToolBookmarks s t
        = (s.filter (fun b => b.toolName != t), .ok ()))
    ∧ (s.any (fun b => b.toolName == t) = false →
      bookmarkServiceImpl.DeleteToolBookmarks s t = (s, .error (.repoErr .notFound))) := by
  unfold bookmarkServiceImpl.DeleteToolBookmarks
  rw [YAMLBookmarkRepository.deleteByToolName_eq]
  constructor
  · intro h
    simp [h]
  · intro h
    simp [h]

/-- Witness for C7: with two `kubectl` records and one `docker` record,
deleting `kubectl` leaves exactly the `docker` record; the hypothesis
(at least one match) holds at this input. -/
theorem c7_bulk_delete_semantics_witness :
    (([⟨"k1", "kubectl", "d1"⟩, ⟨"k2", "kubectl", "d2"⟩, ⟨"dk", "docker", "d3"⟩] :
        List Bookmark).any (fun b => b.toolName == "kubectl") = true)
    ∧ bookmarkServiceImpl.DeleteToolBookmarks
        [⟨"k1", "kubectl", "d1"⟩, ⟨"k2", "kubectl", "d2"⟩, ⟨"dk", "docker", "d3"⟩] "kubectl"
      = (([⟨"k1", "kubectl", "d1"⟩, ⟨"k2", "kubectl", "d2"⟩, ⟨"dk", "docker", "d3"⟩] :
          List Bookmark).filter (fun b => b.toolName != "kubectl"), .ok ()) :=
  ⟨by decide,
   (c7_bulk_delete_semantics
     [⟨"k1", "kubectl", "d1"⟩, ⟨"k2", "kubectl", "d2"⟩, ⟨"dk", "docker", "d3"⟩]
     "kubectl").1 (by decide)⟩

/-- C8: a create request in which any field trims to the empty string is
rejected with a validation error and the store is unchanged — no record
is persisted. -/
theorem c8_validation_rejects_blanks (s : List Bookmark) (req : CreateBookmarkRequest)
    (h : TrimSpace req.command = "" ∨ TrimSpace req.toolName = "" ∨
      TrimSpace req.description = "") :
    ∃ f, bookmarkServiceImpl.CreateBookmark s req = (s, .error (.validation f)) := by
  unfold bookmarkServiceImpl.CreateBookmark bookmarkServiceImpl.validateCreateRequest
  by_cases h1 : TrimSpace req.command = ""
  · exact ⟨.command, by simp [h1]⟩
  · by_cases h2 : TrimSpace req.toolName = ""
    · exact ⟨.toolName, by simp [h1, h2]⟩
    · by_cases h3 : TrimSpace req.description = ""
      · exact ⟨.description, by simp [h1, h2, h3]⟩
      · rcases h with h | h | h <;> contradiction

/-- Witness for C8: a whitespace-only command is rejected and the empty
store stays empty. -/
theorem c8_validation_rejects_blanks_witness :
    (TrimSpace "   " = "" ∨ TrimSpace "kubectl" = "" ∨ TrimSpace "test" = "")
    ∧ ∃ f, bookmarkServiceImpl.CreateBookmark [] ⟨"   ", "kubectl", "test"⟩
        = ([], .error (.validation f)) :=
  ⟨Or.inl (by decide),
   c8_validation_rejects_blanks [] ⟨"   ", "kubectl", "test"⟩ (Or.inl (by decide))⟩

/-- Counterexample to C2: the request command `"  ls  "` is non-empty
after trimming (it trims to `"ls"`), yet `CreateBookmark` persists and
returns the untrimmed `"  ls  "`, not the trimmed value. -/
theorem c2_counterexample :
    TrimSpace "  ls  " = "ls"
    ∧ bookmarkServiceImpl.CreateBookmark [] ⟨"  ls  ", "t", "d"⟩
        = ([⟨"  ls  ", "t", "d"⟩], .ok ⟨"  ls  ", "t", "d"⟩)
    ∧ ("  ls  " : String) ≠ "ls" :=
  ⟨by decide, by decide, by decide⟩

/-- C2 amended: `createBookmark` uses trimming only inside validation; a
valid, non-conflicting request is persisted and echoed with its fields
exactly as given (untrimmed). -/
theorem c2_create_persists_fields_verbatim (s : List Bookmark) (req : CreateBookmarkRequest)
    (hv : bookmarkServiceImpl.validateCreateRequest req = none)
    (he : YAMLBookmarkRepository.Exists s req.command = false) :
    bookmarkServiceImpl.CreateBookmark s req
      = (s ++ [⟨req.command, req.toolName, req.description⟩],
         .ok ⟨req.command, req.toolName, req.description⟩) := by
  have hno : ∀ x ∈ s, x.command ≠ req.command :=
    (YAMLBookmarkRepository.exists_eq_false_iff s req.command).mp he
  have hcr : YAMLBookmarkRepository.Create s ⟨req.command, req.toolName, req.description⟩
      = .ok (s ++ [⟨req.command, req.toolName, req.description⟩]) :=
    YAMLBookmarkRepository.create_ok_iff.mpr ⟨hno, rfl⟩
  simp only [bookmarkServiceImpl.CreateBookmark, hv, he, Bool.false_eq_true, if_false, hcr,
    bookmarkServiceImpl.modelToDTO]

/-- Witness for the amended C2 at the padded input. -/
theorem c2_create_persists_fields_verbatim_witness :
    bookmarkServiceImpl.validateCreateRequest ⟨"  ls  ", "t", "d"⟩ = none
    ∧ YAMLBookmarkRepository.Exists [] "  ls  " = false
    ∧ bookmarkServiceImpl.CreateBookmark [] ⟨"  ls  ", "t", "d"⟩
        = ([] ++ [⟨"  ls  ", "t", "d"⟩], .ok ⟨"  ls  ", "t", "d"⟩) :=
  ⟨by decide, by decide,
   c2_create_persists_fields_verbatim [] ⟨"  ls  ", "t", "d"⟩ (by decide) (by decide)⟩

/-- Counterexample to C3: after a successful create, an update providing a
whitespace-only `newToolName` succeeds and stores the whitespace-only
value, so the non-blank invariant does not survive updates. -/
theorem c3_counterexample :
    bookmarkServiceImpl.CreateBookmark [] ⟨"c", "t", "d"⟩
        = ([⟨"c", "t", "d"⟩], .ok ⟨"c", "t", "d"⟩)
    ∧ bookmarkServiceImpl.UpdateBookmark [⟨"c", "t", "d"⟩] ⟨"c", "   ", "", ""⟩
        = ([⟨"c", "   ", "d"⟩], .ok ⟨"c", "   ", "d"⟩)
    ∧ TrimSpace "   " = "" :=
  ⟨by decide, by decide, by decide⟩

/-- C3 amended: only creation validates the fields — every record a
successful `createBookmark` adds has all three fields non-empty after
trimming (records already in the store are untouched);
`updateBookmark` performs no such validation. -/
theorem c3_create_only_persists_nonblank (s : List Bookmark) (req : CreateBookmarkRequest)
    (s' : List Bookmark) (r : BookmarkResponse)
    (h : bookmarkServiceImpl.CreateBookmark s req = (s', .ok r)) :
    ∀ b ∈ s', b ∈ s ∨
      (TrimSpace b.command ≠ "" ∧ TrimSpace b.toolName ≠ "" ∧
        TrimSpace b.description ≠ "") := by
  unfold bookmarkServiceImpl.CreateBookmark at h
  cases hv : bookmarkServiceImpl.validateCreateRequest req with
  | some e =>
    rw [hv] at h
    simp at h
  | none =>
    rw [hv] at h
    by_cases he : YAMLBookmarkRepository.Exists s req.command = true
    · simp [he] at h
    · have he' : YAMLBookmarkRepository.Exists s req.command = false := by
        simpa using he
      rw [he'] at h
      simp only [Bool.false_eq_true, if_false] at h
      cases hcr : YAMLBookmarkRepository.Create s ⟨req.command, req.toolName, req.description⟩ with
      | error e =>
        rw [hcr] at h
        simp at h
      | ok s2 =>
        rw [hcr] at h
        simp only [Prod.mk.injEq, Except.ok.injEq] at h
        obtain ⟨hs', -⟩ := h
        obtain ⟨-, hs2⟩ := YAMLBookmarkRepository.create_ok_iff.mp hcr
        intro b hb
        rw [← hs', hs2] at hb
        rcases List.mem_append.mp hb with hbs | hbr
        · exact Or.inl hbs
        · have hbeq : b = ⟨req.command, req.toolName, req.description⟩ := by simpa using hbr
          subst hbeq
          exact Or.inr ((validateCreateRequest_none_iff req).mp hv)

/-- Witness for the amended C3. -/
theorem c3_create_only_persists_nonblank_witness :
    bookmarkServiceImpl.CreateBookmark [] ⟨"c", "t", "d"⟩
        = ([⟨"c", "t", "d"⟩], .ok ⟨"c", "t", "d"⟩)
    ∧ ∀ b ∈ ([⟨"c", "t", "d"⟩] : List Bookmark), b ∈ ([] : List Bookmark) ∨
      (TrimSpace b.command ≠ "" ∧ TrimSpace b.toolName ≠ "" ∧
        TrimSpace b.description ≠ "") :=
  ⟨by decide,
   c3_create_only_persists_nonblank [] ⟨"c", "t", "d"⟩ [⟨"c", "t", "d"⟩] ⟨"c", "t", "d"⟩
     (by decide)⟩

instance (s : List Bookmark) : Decidable (UniqueCommands s) :=
  inferInstanceAs (Decidable (s.map Bookmark.command).Nodup)

/-- Inverting a successful `CreateBookmark` run. -/
theorem createBookmark_ok_elim {s : List Bookmark} {req : CreateBookmarkRequest}
    {s' : List Bookmark} {r : BookmarkResponse}
    (h : bookmarkServiceImpl.CreateBookmark s req = (s', .ok r)) :
    bookmarkServiceImpl.validateCreateRequest req = none ∧
    YAMLBookmarkRepository.Exists s req.command = false ∧
    s' = s ++ [⟨req.command, req.toolName, req.description⟩] ∧
    r = ⟨req.command, req.toolName, req.description⟩ := by
  unfold bookmarkServiceImpl.CreateBookmark at h
  cases hv : bookmarkServiceImpl.validateCreateRequest req with
  | some e =>
    rw [hv] at h
    simp at h
  | none =>
    rw [hv] at h
    by_cases he : YAMLBookmarkRepository.Exists s req.command = true
    · simp [he] at h
    · have he' : YAMLBookmarkRepository.Exists s req.command = false := by simpa using he
      rw [he'] at h
      simp only [Bool.false_eq_true, if_false] at h
      cases hcr : YAMLBookmarkRepository.Create s ⟨req.command, req.toolName, req.description⟩ with
      | error e =>
        rw [hcr] at h
        simp at h
      | ok s2 =>
        rw [hcr] at h
        simp only [Prod.mk.injEq, Except.ok.injEq] at h
        obtain ⟨hs', hr⟩ := h
        obtain ⟨-, hs2⟩ := YAMLBookmarkRepository.create_ok_iff.mp hcr
        exact ⟨rfl, he', by rw [← hs', hs2], by
          rw [← hr]
          rfl⟩

/-- Inverting a successful non-rename `UpdateBookmark` run. -/
theorem updateBookmark_inplace_ok_elim {s : List Bookmark} {req : UpdateBookmarkRequest}
    {s' : List Bookmark} {r : BookmarkResponse}
    (hnc : (req.newCommand != "" && req.newCommand != req.command) = false)
    (h : bookmarkServiceImpl.UpdateBookmark s req = (s', .ok r)) :
    ∃ existing0, YAMLBookmarkRepository.GetByCommand s req.command = .ok existing0 ∧
      YAMLBookmarkRepository.Update s (bookmarkServiceImpl.applyOptionalFields existing0 req)
        = .ok s' ∧
      r = bookmarkServiceImpl.modelToDTO
        (bookmarkServiceImpl.applyOptionalFields existing0 req) := by
  unfold bookmarkServiceImpl.UpdateBookmark at h
  cases hg : YAMLBookmarkRepository.GetByCommand s req.command with
  | error e =>
    rw [hg] at h
    simp at h
  | ok ex0 =>
    rw [hg] at h
    simp only [hnc, Bool.false_eq_true, if_false] at h
    cases hup : YAMLBookmarkRepository.Update s
        (bookmarkServiceImpl.applyOptionalFields ex0 req) with
    | error e =>
      rw [hup] at h
      simp at h
    | ok s2 =>
      rw [hup] at h
      simp only [Prod.mk.injEq, Except.ok.injEq] at h
      obtain ⟨hs', hr⟩ := h
      exact ⟨ex0, rfl, by rw [← hs']; exact hup, hr.symm⟩

/-- Inverting a successful rename `UpdateBookmark` run. -/
theorem updateBookmark_rename_ok_elim {s : List Bookmark} {req : UpdateBookmarkRequest}
    {s' : List Bookmark} {r : BookmarkResponse}
    (hnc : (req.newCommand != "" && req.newCommand != req.command) = true)
    (h : bookmarkServiceImpl.UpdateBookmark s req = (s', .ok r)) :
    ∃ existing0 s1, YAMLBookmarkRepository.GetByCommand s req.command = .ok existing0 ∧
      YAMLBookmarkRepository.Exists s req.newCommand = false ∧
      YAMLBookmarkRepository.Delete s req.command = .ok s1 ∧
      YAMLBookmarkRepository.Create s1
        ⟨req.newCommand, (bookmarkServiceImpl.applyOptionalFields existing0 req).toolName,
          (bookmarkServiceImpl.applyOptionalFields existing0 req).description⟩
        = .ok s' ∧
      r = bookmarkServiceImpl.modelToDTO
        ⟨req.newCommand, (bookmarkServiceImpl.applyOptionalFields existing0 req).toolName,
          (bookmarkServiceImpl.applyOptionalFields existing0 req).description⟩ := by
  unfold bookmarkServiceImpl.UpdateBookmark at h
  split at h
  · simp at h
  next ex0 hg =>
    rw [if_pos hnc] at h
    by_cases he : YAMLBookmarkRepository.Exists s req.newCommand = true
    · rw [if_pos he] at h
      simp at h
    · rw [if_neg he] at h
      split at h
      · simp at h
      next s1 hdel =>
        split at h
        · simp at h
        next s2 hcr =>
          simp only [Prod.mk.injEq, Except.ok.injEq] at h
          obtain ⟨hs', hr⟩ := h
          exact ⟨ex0, s1, hg, by simpa using he, hdel, by rw [← hs']; exact hcr, hr.symm⟩

/-- C5: attempting to rename an existing record's command to another
existing command fails with Conflict and leaves the stored collection —
every record, every field, every position — exactly as it was. -/
theorem c5_rename_conflict_leaves_store_unchanged (s : List Bookmark) (c1 c2 nt nd : String)
    (h1 : YAMLBookmarkRepository.Exists s c1 = true)
    (h2 : YAMLBookmarkRepository.Exists s c2 = true)
    (hne : c1 ≠ c2) (hc2 : c2 ≠ "") :
    bookmarkServiceImpl.UpdateBookmark s ⟨c1, nt, nd, c2⟩ = (s, .error .conflict) := by
  obtain ⟨x, hx⟩ := getByCommand_ok_of_exists h1
  have hc2c1 : c2 ≠ c1 := Ne.symm hne
  have hcond : (c2 != "" && c2 != c1) = true := by simp [bne, hc2, hc2c1]
  simp only [bookmarkServiceImpl.UpdateBookmark, hx, hcond, if_true, h2]

/-- Witness for C5: renaming `c1` to the existing `c2` is rejected and
the two records survive untouched, in order. -/
theorem c5_rename_conflict_witness :
    YAMLBookmarkRepository.Exists [⟨"c1", "t1", "d1"⟩, ⟨"c2", "t2", "d2"⟩] "c1" = true
    ∧ YAMLBookmarkRepository.Exists [⟨"c1", "t1", "d1"⟩, ⟨"c2", "t2", "d2"⟩] "c2" = true
    ∧ ("c1" : String) ≠ "c2" ∧ ("c2" : String) ≠ ""
    ∧ bookmarkServiceImpl.UpdateBookmark [⟨"c1", "t1", "d1"⟩, ⟨"c2", "t2", "d2"⟩]
        ⟨"c1", "", "", "c2"⟩
      = ([⟨"c1", "t1", "d1"⟩, ⟨"c2", "t2", "d2"⟩], .error .conflict) :=
  ⟨by decide, by decide, by decide, by decide,
   c5_rename_conflict_leaves_store_unchanged [⟨"c1", "t1", "d1"⟩, ⟨"c2", "t2", "d2"⟩]
     "c1" "c2" "" "" (by decide) (by decide) (by decide) (by decide)⟩

/-- C6: an update that provides only a new description replaces just the
description of the matching record, in place: command and toolName are
unchanged, and the stored record afterwards is `⟨c1, t1, d2⟩`. -/
theorem c6_partial_update_preserves_untouched_fields (s : List Bookmark)
    (c1 t1 d1 d2 : String)
    (h : YAMLBookmarkRepository.GetByCommand s c1 = .ok ⟨c1, t1, d1⟩)
    (hd : d2 ≠ "") :
    ∃ s', bookmarkServiceImpl.UpdateBookmark s ⟨c1, "", d2, ""⟩
        = (s', .ok ⟨c1, t1, d2⟩)
      ∧ YAMLBookmarkRepository.GetByCommand s' c1 = .ok ⟨c1, t1, d2⟩ := by
  have hf := getByCommand_find? h
  obtain ⟨l1, l2, hs, hne⟩ := YAMLBookmarkRepository.find?_command_decomp hf
  have hap : bookmarkServiceImpl.applyOptionalFields ⟨c1, t1, d1⟩ ⟨c1, "", d2, ""⟩
      = ⟨c1, t1, d2⟩ := by
    rw [applyOptionalFields_eq]
    simp [hd]
  have hup : YAMLBookmarkRepository.Update s ⟨c1, t1, d2⟩
      = .ok (l1 ++ ⟨c1, t1, d2⟩ :: l2) := by
    rw [hs]
    exact YAMLBookmarkRepository.update_eq_ok_of_decomp hne rfl
  refine ⟨l1 ++ ⟨c1, t1, d2⟩ :: l2, ?_, ?_⟩
  · have hcond : (("" : String) != "" && ("" : String) != c1) = false := by simp
    simp only [bookmarkServiceImpl.UpdateBookmark, h, hcond, Bool.false_eq_true, if_false,
      hap, hup, bookmarkServiceImpl.modelToDTO]
  · unfold YAMLBookmarkRepository.GetByCommand
    rw [find?_append_of_prefix_none (by
      intro y hy
      simpa using hne y hy)]
    rw [List.find?_cons_of_pos _ (by simp)]

/-- Witness for C6: updating only the description of the single stored
record yields `⟨c1, t1, d2⟩` in place. -/
theorem c6_partial_update_witness :
    YAMLBookmarkRepository.GetByCommand [⟨"c1", "t1", "d1"⟩] "c1" = .ok ⟨"c1", "t1", "d1"⟩
    ∧ ("d2" : String) ≠ ""
    ∧ ∃ s', bookmarkServiceImpl.UpdateBookmark [⟨"c1", "t1", "d1"⟩] ⟨"c1", "", "d2", ""⟩
        = (s', .ok ⟨"c1", "t1", "d2"⟩)
      ∧ YAMLBookmarkRepository.GetByCommand s' "c1" = .ok ⟨"c1", "t1", "d2"⟩ :=
  ⟨by decide, by decide,
   c6_partial_update_preserves_untouched_fields [⟨"c1", "t1", "d1"⟩] "c1" "t1" "d1" "d2"
     (by decide) (by decide)⟩

/-- C4: renaming an existing record's command to a command not yet in
the store succeeds; afterwards the old command is NotFound and the new
command resolves to the record with the new command and the (possibly
updated) toolName and description. -/
theorem c4_rename_moves_key (s : List Bookmark) (orig : Bookmark) (c1 c2 nt nd : String)
    (hu : UniqueCommands s)
    (h1 : YAMLBookmarkRepository.GetByCommand s c1 = .ok orig)
    (h2 : YAMLBookmarkRepository.Exists s c2 = false)
    (hc2 : c2 ≠ "") :
    ∃ s',
      bookmarkServiceImpl.UpdateBookmark s ⟨c1, nt, nd, c2⟩
        = (s', .ok ⟨c2, if nt = "" then orig.toolName else nt,
                    if nd = "" then orig.description else nd⟩)
      ∧ bookmarkServiceImpl.GetBookmark s' c1 = .error (.repoErr .notFound)
      ∧ bookmarkServiceImpl.GetBookmark s' c2
          = .ok ⟨c2, if nt = "" then orig.toolName else nt,
                  if nd = "" then orig.description else nd⟩ := by
  obtain ⟨horigmem, horigcmd⟩ := YAMLBookmarkRepository.getByCommand_ok h1
  have hnoc2 : ∀ x ∈ s, x.command ≠ c2 :=
    (YAMLBookmarkRepository.exists_eq_false_iff s c2).mp h2
  have hc2c1 : c2 ≠ c1 := by
    intro heq
    exact hnoc2 orig horigmem (horigcmd.trans heq.symm)
  have hcond : (c2 != "" && c2 != c1) = true := by simp [bne, hc2, hc2c1]
  have hfind := getByCommand_find? h1
  obtain ⟨l1, l2, hs, hnel1⟩ := YAMLBookmarkRepository.find?_command_decomp hfind
  have hdel : YAMLBookmarkRepository.Delete s c1 = .ok (l1 ++ l2) := by
    rw [hs]
    exact YAMLBookmarkRepository.delete_eq_ok_of_decomp hnel1 horigcmd
  have hnoc2' : ∀ x ∈ l1 ++ l2, x.command ≠ c2 := by
    intro x hx
    apply hnoc2
    rw [hs]
    rcases List.mem_append.mp hx with hxl | hxr
    · exact List.mem_append_left _ hxl
    · exact List.mem_append_right _ (List.mem_cons_of_mem _ hxr)
  have hap := applyOptionalFields_eq orig ⟨c1, nt, nd, c2⟩
  have hcr : YAMLBookmarkRepository.Create (l1 ++ l2)
      ⟨c2, if nt = "" then orig.toolName else nt, if nd = "" then orig.description else nd⟩
      = .ok ((l1 ++ l2) ++ [⟨c2, if nt = "" then orig.toolName else nt,
          if nd = "" then orig.description else nd⟩]) :=
    YAMLBookmarkRepository.create_ok_iff.mpr ⟨hnoc2', rfl⟩
  refine ⟨(l1 ++ l2) ++ [⟨c2, if nt = "" then orig.toolName else nt,
      if nd = "" then orig.description else nd⟩], ?_, ?_, ?_⟩
  · simp only [bookmarkServiceImpl.UpdateBookmark, h1]
    rw [if_pos hcond, if_neg (by simp [h2])]
    simp only [hap, hdel, hcr, bookmarkServiceImpl.modelToDTO]
  · have hget : YAMLBookmarkRepository.GetByCommand
        ((l1 ++ l2) ++ [⟨c2, if nt = "" then orig.toolName else nt,
          if nd = "" then orig.description else nd⟩]) c1 = .error .notFound := by
      apply (YAMLBookmarkRepository.getByCommand_eq_error_iff _ _).mpr
      intro b hb
      rcases List.mem_append.mp hb with hbl | hbr
      · exact delete_no_command hu hdel b hbl
      · have hbeq : b = ⟨c2, if nt = "" then orig.toolName else nt,
            if nd = "" then orig.description else nd⟩ := by simpa using hbr
        subst hbeq
        exact hc2c1
    simp only [bookmarkServiceImpl.GetBookmark, hget]
  · have hget : YAMLBookmarkRepository.GetByCommand
        ((l1 ++ l2) ++ [⟨c2, if nt = "" then orig.toolName else nt,
          if nd = "" then orig.description else nd⟩]) c2
        = .ok ⟨c2, if nt = "" then orig.toolName else nt,
            if nd = "" then orig.description else nd⟩ := by
      unfold YAMLBookmarkRepository.GetByCommand
      rw [find?_append_of_prefix_none (by
        intro y hy
        simpa using hnoc2' y hy)]
      rw [List.find?_cons_of_pos _ (by simp)]
    simp only [bookmarkServiceImpl.GetBookmark, hget, bookmarkServiceImpl.modelToDTO]

/-- Witness for C4: renaming the single record `c1` to the fresh `c2`. -/
theorem c4_rename_moves_key_witness :
    UniqueCommands [⟨"c1", "t1", "d1"⟩]
    ∧ YAMLBookmarkRepository.GetByCommand [⟨"c1", "t1", "d1"⟩] "c1" = .ok ⟨"c1", "t1", "d1"⟩
    ∧ YAMLBookmarkRepository.Exists [⟨"c1", "t1", "d1"⟩] "c2" = false
    ∧ ("c2" : String) ≠ ""
    ∧ ∃ s', bookmarkServiceImpl.UpdateBookmark [⟨"c1", "t1", "d1"⟩] ⟨"c1", "", "", "c2"⟩
        = (s', .ok ⟨"c2", if ("" : String) = "" then "t1" else "",
                   if ("" : String) = "" then "d1" else ""⟩)
      ∧ bookmarkServiceImpl.GetBookmark s' "c1" = .error (.repoErr .notFound)
      ∧ bookmarkServiceImpl.GetBookmark s' "c2"
          = .ok ⟨"c2", if ("" : String) = "" then "t1" else "",
                 if ("" : String) = "" then "d1" else ""⟩ :=
  ⟨by decide, by decide, by decide, by decide,
   c4_rename_moves_key [⟨"c1", "t1", "d1"⟩] ⟨"c1", "t1", "d1"⟩ "c1" "c2" "" ""
     (by decide) (by decide) (by decide) (by decide)⟩

/-- C9: `list` returns the stored collection in storage order; a
successful create appends the new record at the end; a successful update
that does not change the command replaces the matching record in place
(same position, same neighbours); a successful update that changes the
command removes the old entry and appends the renamed record at the end. -/
theorem c9_collection_ordering :
    (∀ s : List Bookmark, YAMLBookmarkRepository.list s = s)
    ∧ (∀ (s : List Bookmark) (req : CreateBookmarkRequest) (s' : List Bookmark)
        (r : BookmarkResponse),
        bookmarkServiceImpl.CreateBookmark s req = (s', .ok r) →
          s' = s ++ [⟨req.command, req.toolName, req.description⟩])
    ∧ (∀ (s : List Bookmark) (req : UpdateBookmarkRequest) (s' : List Bookmark)
        (r : BookmarkResponse),
        (req.newCommand = "" ∨ req.newCommand = req.command) →
        bookmarkServiceImpl.UpdateBookmark s req = (s', .ok r) →
          ∃ l1 x b l2, s = l1 ++ x :: l2 ∧ x.command = req.command ∧
            b.command = req.command ∧ s' = l1 ++ b :: l2)
    ∧ (∀ (s : List Bookmark) (req : UpdateBookmarkRequest) (s' : List Bookmark)
        (r : BookmarkResponse),
        req.newCommand ≠ "" → req.newCommand ≠ req.command →
        bookmarkServiceImpl.UpdateBookmark s req = (s', .ok r) →
          ∃ l1 x l2 b, s = l1 ++ x :: l2 ∧ x.command = req.command ∧
            b.command = req.newCommand ∧ s' = (l1 ++ l2) ++ [b]) := by
  refine ⟨fun s => rfl, ?_, ?_, ?_⟩
  · intro s req s' r h
    exact (createBookmark_ok_elim h).2.2.1
  · intro s req s' r hnc h
    have hncb : (req.newCommand != "" && req.newCommand != req.command) = false := by
      rcases hnc with h' | h' <;> simp [bne, h']
    obtain ⟨ex0, hg, hup, -⟩ := updateBookmark_inplace_ok_elim hncb h
    obtain ⟨-, hcmd⟩ := YAMLBookmarkRepository.getByCommand_ok hg
    obtain ⟨l1, x, l2, hs, -, hx, hres⟩ := YAMLBookmarkRepository.update_ok_decomp hup
    refine ⟨l1, x, bookmarkServiceImpl.applyOptionalFields ex0 req, l2, hs, ?_, ?_, hres⟩
    · rw [hx, applyOptionalFields_eq]
      exact hcmd
    · rw [applyOptionalFields_eq]
      exact hcmd
  · intro s req s' r h1 h2 h
    have hncb : (req.newCommand != "" && req.newCommand != req.command) = true := by
      simp [bne, h1, h2]
    obtain ⟨ex0, s1, hg, -, hdel, hcr, -⟩ := updateBookmark_rename_ok_elim hncb h
    obtain ⟨l1, x, l2, hs, -, hx, hs1⟩ := YAMLBookmarkRepository.delete_ok_decomp hdel
    obtain ⟨-, hs'⟩ := YAMLBookmarkRepository.create_ok_iff.mp hcr
    refine ⟨l1, x, l2,
      ⟨req.newCommand, (bookmarkServiceImpl.applyOptionalFields ex0 req).toolName,
        (bookmarkServiceImpl.applyOptionalFields ex0 req).description⟩, hs, hx, rfl, ?_⟩
    rw [hs', hs1]

/-- Witness for C9: an in-place update of the single stored record splits
the store around the replaced position. -/
theorem c9_collection_ordering_witness :
    bookmarkServiceImpl.UpdateBookmark [⟨"c", "t", "d"⟩] ⟨"c", "", "d2", ""⟩
        = ([⟨"c", "t", "d2"⟩], .ok ⟨"c", "t", "d2"⟩)
    ∧ ∃ l1 x b l2, ([⟨"c", "t", "d"⟩] : List Bookmark) = l1 ++ x :: l2 ∧
        x.command = "c" ∧ b.command = "c" ∧
        ([⟨"c", "t", "d2"⟩] : List Bookmark) = l1 ++ b :: l2 :=
  ⟨by decide,
   c9_collection_ordering.2.2.1 [⟨"c", "t", "d"⟩] ⟨"c", "", "d2", ""⟩ [⟨"c", "t", "d2"⟩]
     ⟨"c", "t", "d2"⟩ (Or.inl rfl) (by decide)⟩

